import Mathlib

/-!
# mod_morse: the Morse tables, the pattern index, the two compilers, the query and the setters

A shallow embedding of `src/mod_morse.c`.

Conventions of the embedding.

* A C string is the `List Char` of the characters stored in the buffer; the
  terminating NUL is the end of the list.  The loops also stop at a `'\x00'`
  element, as the C code does when it meets a NUL byte, so a list stands for
  the buffer it would be written into.
* A `const char*` table entry is an `Option String`: `NULL` is `none`.
* An array read `T[i]` is `T[i]?`: the outer `none` is a read outside the
  128 entries of the table, which C leaves undefined.
* `unsigned char` arithmetic is arithmetic on `Nat` reduced `% 256`.
* The stream handed to `write_function` is the list of what was written to it.
* The parsers `atof` and `atoi` and the conversions of a number to the `float`
  field `hz` are parameters of the setters (`c_numeric`); `int_to_float` is the
  conversion C applies when an `int` is assigned to a `float`.
-/

set_option maxRecDepth 2000

namespace ModMorse

/-! ## Data model -/

/-- The five timing fields of `struct morse_data` (`morse_t`).  The field `end`
of the C struct is spelled `end_`; the value of the `float` field `hz` is
carried as the rational number it denotes. -/
structure morse_t where
  hz : Rat
  on_dot : Int
  on_dash : Int
  off : Int
  end_ : Int
deriving DecidableEq, Repr

/-- One call of `write_function` by `text_to_teletone`: the tone `%(on,off,freq)`
it appends to the stream; the three fields are the arguments of the call
(`on` and `off` in milliseconds, the frequency in Hz). -/
structure ToneEvent where
  on_ms : Int
  off_ms : Int
  freq : Rat
deriving DecidableEq, Repr

/-- The null pointer of a `const char*` table entry. -/
def NULL : Option String := none

/-- The table `CHAR_TO_MORSE[128]`. -/
def CHAR_TO_MORSE : List (Option String) := [
  NULL, NULL, NULL, NULL, NULL, NULL, NULL, NULL,
  NULL, NULL, NULL, NULL, NULL, NULL, NULL, NULL,
  NULL, NULL, NULL, NULL, NULL, NULL, NULL, NULL,
  NULL, NULL, NULL, NULL, NULL, NULL, NULL, NULL,
  NULL, some "-.-.--", some ".-..-.", NULL, NULL, NULL, NULL, some ".----.",
  some "-.--.", some "-.--.-", NULL, NULL, some "--..--", some "-....-", some ".-.-.-", some "-..-.",
  some "-----", some ".----", some "..---", some "...--", some "....-", some ".....", some "-....", some "--...",
  some "---..", some "----.", some "---...", NULL, NULL, some "-...-", NULL, some "..--..",
  some ".--.-.", some ".-", some "-...", some "-.-.", some "-..", some ".", some "..-.", some "--.",
  some "....", some "..", some ".---", some "-.-", some ".-..", some "--", some "-.", some "---",
  some ".--.", some "--.-", some ".-.", some "...", some "-", some "..-", some "...-", some ".--",
  some "-..-", some "-.--", some "--..", NULL, NULL, NULL, NULL, some "..--.-",
  NULL, NULL, NULL, NULL, NULL, NULL, NULL, NULL,
  NULL, NULL, NULL, NULL, NULL, NULL, NULL, NULL,
  NULL, NULL, NULL, NULL, NULL, NULL, NULL, NULL,
  NULL, NULL, NULL, NULL, NULL, NULL, NULL, NULL
]

/-- The table `MORSE_TO_CHAR[128]`. -/
def MORSE_TO_CHAR : List (Option String) := [
  NULL, NULL, some "E", some "T", some "I", some "N", some "A", some "M",
  some "S", some "D", some "R", some "G", some "U", some "K", some "W", some "O",
  some "H", some "B", some "L", some "Z", some "F", some "C", some "P", NULL,
  some "V", some "X", NULL, some "Q", NULL, some "Y", some "J", NULL,
  some "5", some "6", NULL, some "7", NULL, NULL, NULL, some "8",
  NULL, some "/", NULL, NULL, NULL, some "(", NULL, some "9",
  some "4", some "=", NULL, NULL, NULL, NULL, NULL, NULL,
  some "3", NULL, NULL, NULL, some "2", NULL, some "1", some "0",
  NULL, NULL, NULL, NULL, NULL, NULL, NULL, some ":",
  NULL, NULL, NULL, NULL, some "?", NULL, NULL, NULL,
  NULL, NULL, some "\"", NULL, NULL, NULL, some "@", NULL,
  NULL, NULL, NULL, NULL, NULL, NULL, some "'", NULL,
  NULL, some "-", NULL, NULL, NULL, NULL, NULL, NULL,
  NULL, NULL, some ".", NULL, some "_", some ")", NULL, NULL,
  NULL, NULL, NULL, some ",", NULL, some "!", NULL, NULL,
  NULL, NULL, NULL, NULL, NULL, NULL, NULL, NULL
]

/-! ## The pattern index -/

/-- The loop of `morse_to_index`, entered with the current `bit` and `sum`
(both `unsigned char`) and the rest of the buffer at `str`.  The loop test
`bit` is the first check; the `switch (*str++)` follows: the terminator
returns `sum | bit`, a dash sets the bit in `sum`, a dot leaves it, any other
byte returns 0; `bit <<= 1` wraps at eight bits. -/
def morse_to_index_loop (bit sum : Nat) : List Char → Nat
  | [] => if bit = 0 then 0 else sum ||| bit
  | c :: str =>
    if bit = 0 then 0
    else if c = '\x00' then sum ||| bit
    else if c = '-' then morse_to_index_loop ((bit <<< 1) % 256) ((sum ||| bit) % 256) str
    else if c = '.' then morse_to_index_loop ((bit <<< 1) % 256) sum str
    else 0

/-- The function `morse_to_index`: the loop started with `bit = 1`, `sum = 0`. -/
def morse_to_index (str : List Char) : Nat :=
  morse_to_index_loop 1 0 str

/-- The test `islower` of the C locale on a 7-bit character. -/
def islower (c : Char) : Bool :=
  decide ('a'.toNat ≤ c.toNat ∧ c.toNat ≤ 'z'.toNat)

/-- The function `char_to_morse`: a lowercase letter is moved by `'A' - 'a'`,
then the table is read at the character's code. -/
def char_to_morse (c : Char) : Option (Option String) :=
  let c := if islower c then Char.ofNat (c.toNat + 'A'.toNat - 'a'.toNat) else c
  CHAR_TO_MORSE[c.toNat]?

/-- The function `morse_to_char`: the reverse table read at the pattern's index. -/
def morse_to_char (str : List Char) : Option (Option String) :=
  MORSE_TO_CHAR[morse_to_index str]?

/-! ## The two compilers -/

/-- The function `init_info`: the five default values are stored in `info`. -/
def init_info (info : morse_t) : morse_t :=
  { info with hz := 1000, on_dot := 60, on_dash := 120, off := 100, end_ := 500 }

/-- The zeroed structure `morse_t info = { 0 }` that callers hand to `init_info`. -/
def zero_info : morse_t :=
  { hz := 0, on_dot := 0, on_dash := 0, off := 0, end_ := 0 }

/-- The body of the inner loop of `text_to_teletone` at symbol `j` of `code`:
`on` is `on_dot` unless the symbol is a dash, `off` is `off` unless `j` is
`strlen(code) - 1`, and the call writes `on`, `off` and `info->hz`. -/
def symbol_event (info : morse_t) (code : List Char) (j : Nat) : ToneEvent :=
  { on_ms := if code[j]? = some '-' then info.on_dash else info.on_dot,
    off_ms := if j = code.length - 1 then info.end_ else info.off,
    freq := info.hz }

/-- The inner loop `for (j = 0; j < strlen(code); j++)` of `text_to_teletone`:
one write per symbol of the table entry `code`. -/
def write_code (info : morse_t) (code : List Char) (stream : List ToneEvent) : List ToneEvent :=
  (List.range code.length).foldl (fun stream j => stream ++ [symbol_event info code j]) stream

/-- The function `text_to_teletone`: the loop over `str` up to its terminator,
writing to `stream`.  A space writes `"%%(%d,%d,1)"` with `on_dash` and `end`,
so the frequency of that tone is the literal 1 of the format; a character
with a table entry writes its symbols; a character with a `NULL` entry writes
nothing.  The result is `none` when `char_to_morse` reads outside its table. -/
def text_to_teletone (info : morse_t) (stream : List ToneEvent) :
    List Char → Option (List ToneEvent)
  | [] => some stream
  | c :: str =>
    if c = '\x00' then some stream
    else if c = ' ' then
      text_to_teletone info (stream ++ [{ on_ms := info.on_dash, off_ms := info.end_, freq := 1 }]) str
    else
      match char_to_morse c with
      | none => none
      | some none => text_to_teletone info stream str
      | some (some code) => text_to_teletone info (write_code info code.toList stream) str

/-- The function `text_to_morse`: the loop over `str` up to its terminator,
writing to `stream`.  A space writes `" "`, a character with a table entry
writes the entry, a character with a `NULL` entry writes nothing.  The
result is `none` when `char_to_morse` reads outside its table. -/
def text_to_morse (info : morse_t) (stream : List Char) : List Char → Option (List Char)
  | [] => some stream
  | c :: str =>
    if c = '\x00' then some stream
    else if c = ' ' then text_to_morse info (stream ++ [' ']) str
    else
      match char_to_morse c with
      | none => none
      | some none => text_to_morse info stream str
      | some (some code) => text_to_morse info (stream ++ code.toList) str

/-! ## Vocabulary of the specification -/

/-- A pattern of the specification: every symbol is a dot or a dash. -/
def is_pattern (s : List Char) : Prop :=
  ∀ c ∈ s, c = '.' ∨ c = '-'

instance (s : List Char) : Decidable (is_pattern s) := by
  unfold is_pattern; infer_instance

/-- A 7-bit text: a C string (so no character of it is the terminator) whose
characters all lie in 0..127. -/
def text7 (s : List Char) : Prop :=
  ∀ c ∈ s, c ≠ '\x00' ∧ c.toNat < 128

instance (s : List Char) : Decidable (text7 s) := by
  unfold text7; infer_instance

/-- The sum of `2^i` over the positions `i` of `s` that hold a dash, the first
symbol being position 0. -/
def dash_weight (s : List Char) : Nat :=
  ((List.range s.length).map fun i => if s[i]? = some '-' then 2 ^ i else 0).sum

/-- The value of a pattern read as a binary numeral, first symbol lowest, with
a final 1 above the last symbol. -/
def pattern_value : List Char → Nat
  | [] => 1
  | c :: s => (if c = '-' then 1 else 0) + 2 * pattern_value s

/-- The piece of Morse text the specification gives one input character: a
space for a space, the pattern of a character that has one, nothing otherwise. -/
def morse_piece (c : Char) : List Char :=
  if c = ' ' then [' ']
  else match char_to_morse c with
    | some (some code) => code.toList
    | _ => []

/-- The tones one input character adds to the stream in `text_to_teletone`:
the gap tone for a space, the symbols of the entry for a character that has
one, nothing otherwise. -/
def tone_piece (info : morse_t) (c : Char) : List ToneEvent :=
  if c = ' ' then [{ on_ms := info.on_dash, off_ms := info.end_, freq := 1 }]
  else match char_to_morse c with
    | some (some code) => write_code info code.toList []
    | _ => []

/-! ## The one-shot query -/

/-- The status values the module returns. -/
inductive switch_status_t where
  | SWITCH_STATUS_SUCCESS
  | SWITCH_STATUS_BREAK
  | SWITCH_STATUS_UNLOAD
deriving DecidableEq, Repr

/-- What one call of `morse_api_function` writes to its stream: text written
with `"%s"` (the error line, or the output of `text_to_morse`), or the tones
written by `text_to_teletone`. -/
inductive api_stream where
  | text (s : List Char)
  | tones (evs : List ToneEvent)
deriving DecidableEq, Repr

/-- The function `morse_api_function`, with `cmd` a pointer that may be null
(`none`) and the stream empty on entry.  A null `cmd` writes the error line;
otherwise `info` is zeroed and given to `init_info`, and `*cmd == '%'` selects
`text_to_teletone` on `cmd + 1`, anything else `text_to_morse` on `cmd`.
Every path returns `SWITCH_STATUS_SUCCESS`. -/
def morse_api_function (cmd : Option (List Char)) : Option (switch_status_t × api_stream) :=
  match cmd with
  | none => some (switch_status_t.SWITCH_STATUS_SUCCESS, api_stream.text "-ERR Missing Text".toList)
  | some cmd =>
    if cmd.headD '\x00' = '%' then
      (text_to_teletone (init_info zero_info) [] cmd.tail).map
        fun evs => (switch_status_t.SWITCH_STATUS_SUCCESS, api_stream.tones evs)
    else
      (text_to_morse (init_info zero_info) [] cmd).map
        fun s => (switch_status_t.SWITCH_STATUS_SUCCESS, api_stream.text s)

/-! ## The parameter setters -/

/-- The C library's `tolower` in the C locale. -/
def tolower (c : Char) : Char :=
  if 'A'.toNat ≤ c.toNat ∧ c.toNat ≤ 'Z'.toNat then Char.ofNat (c.toNat + 32) else c

/-- The C library's `strcasecmp` in the C locale: the two buffers are walked
together while the lowered bytes agree, the result is 0 when the terminator
is reached on both and the difference of the first two lowered bytes that
differ otherwise.  Past the end of a list the byte read is the terminator. -/
def strcasecmp : List Char → List Char → Int
  | [], t => (0 : Int) - (tolower (t.headD '\x00')).toNat
  | a :: s, t =>
    if tolower a ≠ tolower (t.headD '\x00') ∨ a = '\x00' then
      ((tolower a).toNat : Int) - (tolower (t.headD '\x00')).toNat
    else strcasecmp s t.tail

/-- The numeric conversions of C that the setters go through and that lie
outside the repository: the parsers `atof` and `atoi` of the C library, and
the conversions of a `double` and of an `int` to the `float` field `hz`. -/
structure c_numeric where
  atof : List Char → Rat
  atoi : List Char → Int
  float_of_double : Rat → Rat
  float_of_int : Int → Rat

/-- The function `morse_text_param_tts` on the profile `info`; `param` and
`val` are pointers that may be null. -/
def morse_text_param_tts (lib : c_numeric) (info : morse_t)
    (param val : Option (List Char)) : morse_t :=
  match param, val with
  | some param, some val =>
    if strcasecmp param "hz".toList = 0 then
      { info with hz := lib.float_of_double (lib.atof val) }
    else if strcasecmp param "on_dot".toList = 0 then
      { info with on_dot := lib.atoi val }
    else if strcasecmp param "on_dash".toList = 0 then
      { info with on_dash := lib.atoi val }
    else if strcasecmp param "off".toList = 0 then
      { info with off := lib.atoi val }
    else if strcasecmp param "end".toList = 0 then
      { info with end_ := lib.atoi val }
    else info
  | _, _ => info

/-- The function `morse_numeric_param_tts` on the profile `info`. -/
def morse_numeric_param_tts (lib : c_numeric) (info : morse_t)
    (param : List Char) (val : Int) : morse_t :=
  if strcasecmp param "hz".toList = 0 then
    { info with hz := lib.float_of_int val }
  else if strcasecmp param "on_dot".toList = 0 then
    { info with on_dot := val }
  else if strcasecmp param "on_dash".toList = 0 then
    { info with on_dash := val }
  else if strcasecmp param "off".toList = 0 then
    { info with off := val }
  else if strcasecmp param "end".toList = 0 then
    { info with end_ := val }
  else info

/-- The function `morse_float_param_tts` on the profile `info`: its one
branch is the name `hz`. -/
def morse_float_param_tts (lib : c_numeric) (info : morse_t)
    (param : List Char) (val : Rat) : morse_t :=
  if strcasecmp param "hz".toList = 0 then
    { info with hz := lib.float_of_double val }
  else info

/-! ## Vocabulary of the setter claims -/

/-- The characters of a C string: those of the buffer before its terminator. -/
def c_str (s : List Char) : List Char :=
  s.takeWhile fun c => c ≠ '\x00'

/-- What the specification calls a name equal to `name` ignoring case: the two
strings have the same characters once upper-case letters are lowered. -/
def same_name (param : List Char) (name : String) : Prop :=
  (c_str param).map tolower = (c_str name.toList).map tolower

instance (param : List Char) (name : String) : Decidable (same_name param name) := by
  unfold same_name; infer_instance

/-- The name is one of the five the setters recognise, ignoring case. -/
def known_name (param : List Char) : Prop :=
  same_name param "hz" ∨ same_name param "on_dot" ∨ same_name param "on_dash" ∨
    same_name param "off" ∨ same_name param "end"

instance (param : List Char) : Decidable (known_name param) := by
  unfold known_name; infer_instance

/-- A sample of the conversions, exact on the values the examples use: the
parsers read an optional sign and decimal digits, the conversions to `float`
keep the value. -/
def sample_numeric : c_numeric :=
  { atof := fun s => (String.toInt? (String.mk s)).getD 0,
    atoi := fun s => (String.toInt? (String.mk s)).getD 0,
    float_of_double := fun x => x,
    float_of_int := fun v => v }

/-- The number of low bits dropped when `n` is held in the 24-bit significand
of a `float`: the number of halvings that bring `n` below `2^24`.  The first
argument bounds the number of halvings and is given as `n` itself. -/
def dropped_bits : Nat → Nat → Nat
  | 0, _ => 0
  | fuel + 1, n => if n < 2 ^ 24 then 0 else dropped_bits fuel (n / 2) + 1

/-- The magnitude a natural number takes as a `float` (IEEE 754 binary32,
round to nearest, ties to even): the bits past the 24-bit significand are
dropped, and the significand is raised by one when the dropped part is above
one half of its last place, or equal to one half with an odd significand. -/
def round_to_float (n : Nat) : Nat :=
  if 2 * (n % 2 ^ dropped_bits n n) < 2 ^ dropped_bits n n then
    n / 2 ^ dropped_bits n n * 2 ^ dropped_bits n n
  else if 2 ^ dropped_bits n n < 2 * (n % 2 ^ dropped_bits n n) then
    (n / 2 ^ dropped_bits n n + 1) * 2 ^ dropped_bits n n
  else if n / 2 ^ dropped_bits n n % 2 = 0 then
    n / 2 ^ dropped_bits n n * 2 ^ dropped_bits n n
  else (n / 2 ^ dropped_bits n n + 1) * 2 ^ dropped_bits n n

/-- The value C stores when an `int` is assigned to a `float`, as in
`info->hz = val`: the sign of `val` on the rounded magnitude.  A C `int` stays
far below the largest finite `float`, so the result is always a number. -/
def int_to_float (v : Int) : Rat :=
  if v < 0 then -((round_to_float v.natAbs : Nat) : Rat) else ((round_to_float v.natAbs : Nat) : Rat)

/-- The conversions with C's assignment of an `int` to a `float`; the other
three are those of `sample_numeric`. -/
def rounding_numeric : c_numeric :=
  { sample_numeric with float_of_int := int_to_float }

/-! ## Lemmas on the pattern index -/

theorem or_bit_eq_add {k sum : Nat} (h : sum < 2 ^ k) : sum ||| 2 ^ k = sum + 2 ^ k := by
  have := Nat.mul_add_lt_is_or h 1
  rw [Nat.mul_one] at this
  rw [Nat.lor_comm, ← this, Nat.add_comm]

theorem pattern_value_pos (s : List Char) : 1 ≤ pattern_value s := by
  cases s with
  | nil => simp [pattern_value]
  | cons c s => simp only [pattern_value]; have := pattern_value_pos s; omega

theorem is_pattern_cons (c : Char) (s : List Char) :
    is_pattern (c :: s) ↔ (c = '.' ∨ c = '-') ∧ is_pattern s := by
  simp [is_pattern]

theorem two_pow_lt_256 {k : Nat} (h : k < 8) : 2 ^ k < 256 := by
  calc 2 ^ k < 2 ^ 8 := Nat.pow_lt_pow_right (by norm_num) h
    _ = 256 := by norm_num

theorem morse_to_index_loop_eq (s : List Char) :
    ∀ k sum : Nat, k ≤ 8 → sum < 2 ^ k → '\x00' ∉ s →
      morse_to_index_loop (2 ^ k % 256) sum s =
        if k + s.length ≤ 7 ∧ is_pattern s then sum + 2 ^ k * pattern_value s else 0 := by
  induction s with
  | nil =>
    intro k sum hk hsum _
    rcases Nat.eq_or_lt_of_le hk with h8 | h8
    · subst h8; simp [morse_to_index_loop]
    · have hlt : 2 ^ k < 256 := two_pow_lt_256 h8
      have hpos : 0 < 2 ^ k := Nat.two_pow_pos k
      have hcond : k + ([] : List Char).length ≤ 7 ∧ is_pattern [] := by
        refine ⟨by simp; omega, ?_⟩
        intro c hc; simp at hc
      rw [if_pos hcond, Nat.mod_eq_of_lt hlt]
      simp only [morse_to_index_loop, pattern_value]
      rw [if_neg (by omega), or_bit_eq_add hsum]; omega
  | cons c s ih =>
    intro k sum hk hsum hnul
    have hc0 : c ≠ '\x00' := fun h => hnul (by simp [h])
    have hs0 : '\x00' ∉ s := fun h => hnul (by simp [h])
    rcases Nat.eq_or_lt_of_le hk with h8 | h8
    · subst h8
      rw [if_neg (fun h => by have := h.1; simp at this; omega)]
      simp [morse_to_index_loop]
    · have hlt : 2 ^ k < 256 := two_pow_lt_256 h8
      have hpos : 0 < 2 ^ k := Nat.two_pow_pos k
      have hsucc : 2 ^ (k + 1) = 2 * 2 ^ k := by rw [pow_succ]; ring
      have hshift : (2 ^ k <<< 1) % 256 = 2 ^ (k + 1) % 256 := by
        rw [Nat.shiftLeft_eq, hsucc]; ring_nf
      have hor : (sum ||| 2 ^ k) % 256 = sum + 2 ^ k := by
        rw [or_bit_eq_add hsum]; apply Nat.mod_eq_of_lt
        rcases Nat.eq_or_lt_of_le (Nat.le_of_lt_succ h8) with h7 | h7
        · subst h7; norm_num at hsum ⊢; omega
        · have := two_pow_lt_256 (Nat.succ_lt_succ h7)
          rw [hsucc] at this; omega
      have hlen : k + (c :: s).length = k + 1 + s.length := by simp; omega
      rw [Nat.mod_eq_of_lt hlt, hlen]
      simp only [morse_to_index_loop]
      rw [if_neg (by omega), if_neg hc0, hshift, hor]
      by_cases hd : c = '-'
      · rw [if_pos hd, ih (k + 1) (sum + 2 ^ k) (by omega) (by omega) hs0]
        by_cases hcond : k + 1 + s.length ≤ 7 ∧ is_pattern s
        · rw [if_pos hcond, if_pos ⟨hcond.1, (is_pattern_cons c s).2 ⟨Or.inr hd, hcond.2⟩⟩]
          simp only [pattern_value, hd, if_true]
          rw [hsucc]; ring
        · rw [if_neg hcond, if_neg]
          exact fun h => hcond ⟨h.1, ((is_pattern_cons c s).1 h.2).2⟩
      · rw [if_neg hd]
        by_cases hdot : c = '.'
        · rw [if_pos hdot, ih (k + 1) sum (by omega) (by omega) hs0]
          by_cases hcond : k + 1 + s.length ≤ 7 ∧ is_pattern s
          · rw [if_pos hcond, if_pos ⟨hcond.1, (is_pattern_cons c s).2 ⟨Or.inl hdot, hcond.2⟩⟩]
            simp only [pattern_value, hd, if_false]
            rw [hsucc]; ring
          · rw [if_neg hcond, if_neg]
            exact fun h => hcond ⟨h.1, ((is_pattern_cons c s).1 h.2).2⟩
        · rw [if_neg hdot, if_neg]
          rintro ⟨_, h⟩
          rcases ((is_pattern_cons c s).1 h).1 with h | h
          · exact hdot h
          · exact hd h

theorem is_pattern_no_nul {s : List Char} (h : is_pattern s) : '\x00' ∉ s := by
  intro h0
  rcases h _ h0 with h | h <;> exact absurd h (by decide)

theorem morse_to_index_eq (s : List Char) (h0 : '\x00' ∉ s) :
    morse_to_index s = if s.length ≤ 7 ∧ is_pattern s then pattern_value s else 0 := by
  have := morse_to_index_loop_eq s 0 0 (by omega) (by norm_num) h0
  simpa [morse_to_index] using this

theorem morse_to_index_pattern {s : List Char} (hs : is_pattern s) (hn : s.length ≤ 7) :
    morse_to_index s = pattern_value s := by
  rw [morse_to_index_eq s (is_pattern_no_nul hs), if_pos ⟨hn, hs⟩]

theorem dash_weight_cons (c : Char) (s : List Char) :
    dash_weight (c :: s) = (if c = '-' then 1 else 0) + 2 * dash_weight s := by
  unfold dash_weight
  rw [List.length_cons, List.range_succ_eq_map, List.map_cons, List.sum_cons, List.map_map]
  congr 1
  · simp
  · rw [← List.sum_map_mul_left]
    congr 1
    apply List.map_congr_left
    intro i _
    simp only [Function.comp, List.getElem?_cons_succ]
    split
    · rw [pow_succ]; ring
    · rfl

theorem pattern_value_eq (s : List Char) :
    pattern_value s = 2 ^ s.length + dash_weight s := by
  induction s with
  | nil => simp [pattern_value, dash_weight]
  | cons c s ih =>
    rw [pattern_value, dash_weight_cons, ih, List.length_cons, pow_succ]; ring

theorem pattern_value_inj {p : List Char} (hp : is_pattern p) :
    ∀ {q : List Char}, is_pattern q → pattern_value p = pattern_value q → p = q := by
  induction p with
  | nil =>
    intro q hq h
    cases q with
    | nil => rfl
    | cons d q =>
      have := pattern_value_pos q
      simp only [pattern_value] at h
      split at h <;> omega
  | cons c p ih =>
    intro q hq h
    cases q with
    | nil =>
      have := pattern_value_pos p
      simp only [pattern_value] at h
      split at h <;> omega
    | cons d q =>
      have hp' := (is_pattern_cons c p).1 hp
      have hq' := (is_pattern_cons d q).1 hq
      simp only [pattern_value] at h
      have hcd : c = d := by
        rcases hp'.1 with hc | hc <;> rcases hq'.1 with hd | hd <;> subst hc <;> subst hd <;>
          first | rfl | (simp at h; omega)
      subst hcd
      have : pattern_value p = pattern_value q := by omega
      rw [ih hp'.2 hq'.2 this]

theorem pattern_value_lt (s : List Char) : pattern_value s < 2 ^ (s.length + 1) := by
  induction s with
  | nil => simp [pattern_value]
  | cons c s ih =>
    simp only [pattern_value, List.length_cons]
    have : 2 ^ (s.length + 1 + 1) = 2 * 2 ^ (s.length + 1) := by rw [pow_succ]; ring
    split <;> omega

theorem pattern_value_ge (s : List Char) : 2 ^ s.length ≤ pattern_value s := by
  rw [pattern_value_eq]; omega

/-! ## Lemmas on the compilers -/

theorem char_to_morse_table_isSome :
    ∀ n < 128, (char_to_morse (Char.ofNat n)).isSome = true := by
  decide

theorem char_to_morse_in_table {c : Char} (h7 : c.toNat < 128) :
    ∃ r, char_to_morse c = some r := by
  have h := char_to_morse_table_isSome c.toNat h7
  rw [Char.ofNat_toNat] at h
  exact Option.isSome_iff_exists.1 h

theorem foldl_append_singleton {α β : Type} (f : β → α) (l : List β) :
    ∀ init : List α, l.foldl (fun acc j => acc ++ [f j]) init = init ++ l.map f := by
  induction l with
  | nil => intro init; simp
  | cons b l ih => intro init; simp [ih]

theorem write_code_eq (info : morse_t) (code : List Char) (stream : List ToneEvent) :
    write_code info code stream =
      stream ++ (List.range code.length).map (symbol_event info code) := by
  unfold write_code
  exact foldl_append_singleton (symbol_event info code) _ stream

theorem write_code_append (info : morse_t) (code : List Char) (stream : List ToneEvent) :
    write_code info code stream = stream ++ write_code info code [] := by
  rw [write_code_eq, write_code_eq info code []]; simp

theorem text7_cons {c : Char} {s : List Char} :
    text7 (c :: s) ↔ (c ≠ '\x00' ∧ c.toNat < 128) ∧ text7 s := by
  simp [text7]

theorem text7_append {s t : List Char} : text7 (s ++ t) ↔ text7 s ∧ text7 t := by
  simp only [text7, List.mem_append]
  constructor
  · intro h; exact ⟨fun c hc => h c (Or.inl hc), fun c hc => h c (Or.inr hc)⟩
  · rintro ⟨h1, h2⟩ c (hc | hc)
    · exact h1 c hc
    · exact h2 c hc

theorem text_to_teletone_step (info : morse_t) (c : Char) (str : List Char)
    (hc : c ≠ '\x00' ∧ c.toNat < 128) (stream : List ToneEvent) :
    text_to_teletone info stream (c :: str) =
      text_to_teletone info (stream ++ tone_piece info c) str := by
  obtain ⟨r, hr⟩ := char_to_morse_in_table hc.2
  rw [text_to_teletone, if_neg hc.1]
  unfold tone_piece
  by_cases hsp : c = ' '
  · rw [if_pos hsp, if_pos hsp]
  · rw [if_neg hsp, if_neg hsp, hr]
    cases r with
    | none => simp
    | some code => simp only []; rw [write_code_append]

theorem text_to_teletone_append (info : morse_t) (s t : List Char) (hs : text7 s) :
    ∀ stream, text_to_teletone info stream (s ++ t) =
      text_to_teletone info (stream ++ s.flatMap (tone_piece info)) t := by
  induction s with
  | nil => intro stream; simp
  | cons c s ih =>
    intro stream
    have h := text7_cons.1 hs
    rw [List.cons_append, text_to_teletone_step info c _ h.1, ih h.2]
    simp [List.flatMap_cons, List.append_assoc]

theorem text_to_teletone_text7 (info : morse_t) (s : List Char) (hs : text7 s)
    (stream : List ToneEvent) :
    text_to_teletone info stream s = some (stream ++ s.flatMap (tone_piece info)) := by
  have h := text_to_teletone_append info s [] hs stream
  rw [List.append_nil] at h
  rw [h, text_to_teletone]

theorem text_to_morse_step (info : morse_t) (c : Char) (str : List Char)
    (hc : c ≠ '\x00' ∧ c.toNat < 128) (stream : List Char) :
    text_to_morse info stream (c :: str) =
      text_to_morse info (stream ++ morse_piece c) str := by
  obtain ⟨r, hr⟩ := char_to_morse_in_table hc.2
  rw [text_to_morse, if_neg hc.1]
  unfold morse_piece
  by_cases hsp : c = ' '
  · rw [if_pos hsp, if_pos hsp]
  · rw [if_neg hsp, if_neg hsp, hr]
    cases r with
    | none => simp
    | some code => rfl

theorem text_to_morse_append (info : morse_t) (s t : List Char) (hs : text7 s) :
    ∀ stream, text_to_morse info stream (s ++ t) =
      text_to_morse info (stream ++ s.flatMap morse_piece) t := by
  induction s with
  | nil => intro stream; simp
  | cons c s ih =>
    intro stream
    have h := text7_cons.1 hs
    rw [List.cons_append, text_to_morse_step info c _ h.1, ih h.2]
    simp [List.flatMap_cons, List.append_assoc]

theorem text_to_morse_text7 (info : morse_t) (s : List Char) (hs : text7 s)
    (stream : List Char) :
    text_to_morse info stream s = some (stream ++ s.flatMap morse_piece) := by
  have h := text_to_morse_append info s [] hs stream
  rw [List.append_nil] at h
  rw [h, text_to_morse]

/-! ## Lemmas on the tables -/

theorem roundtrip_table :
    ∀ n < 128,
      (match char_to_morse (Char.ofNat n) with
        | some (some p) =>
          decide (morse_to_char p.toList = some (some (String.singleton
            (if islower (Char.ofNat n) then Char.ofNat ((Char.ofNat n).toNat - 32)
              else Char.ofNat n))))
        | _ => true) = true := by
  decide

theorem char_to_morse_table_pattern :
    ∀ n < 128,
      (match char_to_morse (Char.ofNat n) with
        | some (some p) => decide (is_pattern p.toList)
        | _ => true) = true := by
  decide

theorem char_to_morse_is_pattern {c : Char} {p : String} (h7 : c.toNat < 128)
    (hp : char_to_morse c = some (some p)) : is_pattern p.toList := by
  have h := char_to_morse_table_pattern c.toNat h7
  rw [Char.ofNat_toNat, hp] at h
  simpa using h

theorem char_to_morse_table_lower :
    ∀ n < 128, 'a'.toNat ≤ n → n ≤ 'z'.toNat →
      (match char_to_morse (Char.ofNat n) with
        | some (some p) =>
          decide (char_to_morse (Char.ofNat ((Char.ofNat n).toNat - 32)) = some (some p) ∧
            CHAR_TO_MORSE[(Char.ofNat n).toNat]? = some none)
        | _ => false) = true := by
  decide

theorem char_to_morse_nul : char_to_morse '\x00' = some none := by
  decide

theorem tones_of_E :
    text_to_teletone (init_info zero_info) [] "E".toList =
      some [{ on_ms := 60, off_ms := 500, freq := 1000 }] := by
  decide

theorem tones_of_SOS :
    text_to_teletone (init_info zero_info) [] "SOS".toList =
      some [{ on_ms := 60, off_ms := 100, freq := 1000 },
            { on_ms := 60, off_ms := 100, freq := 1000 },
            { on_ms := 60, off_ms := 500, freq := 1000 },
            { on_ms := 120, off_ms := 100, freq := 1000 },
            { on_ms := 120, off_ms := 100, freq := 1000 },
            { on_ms := 120, off_ms := 500, freq := 1000 },
            { on_ms := 60, off_ms := 100, freq := 1000 },
            { on_ms := 60, off_ms := 100, freq := 1000 },
            { on_ms := 60, off_ms := 500, freq := 1000 }] := by
  decide

theorem morse_of_SOS :
    text_to_morse zero_info [] "SOS".toList = some "...---...".toList := by
  decide

/-! ## The claims -/

/-- C1. Round trip through the two tables: for every 7-bit character `c` for
which `char_to_morse` returns a pattern `p`, `morse_to_char p` reads inside the
reverse table and returns a non-null string of one character, which is `c`
itself, or `c` moved to upper case when `c` is a lowercase letter. -/
theorem char_roundtrip (c : Char) (p : String) (h7 : c.toNat < 128)
    (hp : char_to_morse c = some (some p)) :
    morse_to_char p.toList =
      some (some (String.singleton (if islower c then Char.ofNat (c.toNat - 32) else c))) := by
  have h := roundtrip_table c.toNat h7
  rw [Char.ofNat_toNat, hp] at h
  simpa using h

/-- Witness of C1 at the lowercase letter `a`, whose pattern `.-` decodes to `A`,
and at the comma. -/
theorem char_roundtrip_witness :
    (char_to_morse 'a' = some (some ".-") ∧ morse_to_char ".-".toList = some (some "A")) ∧
    (char_to_morse ',' = some (some "--..--") ∧
      morse_to_char "--..--".toList = some (some ",")) :=
  ⟨⟨by decide, char_roundtrip 'a' ".-" (by decide) (by decide)⟩,
   ⟨by decide, char_roundtrip ',' "--..--" (by decide) (by decide)⟩⟩

/-- C2. For every string `s` of `n ≤ 7` dots and dashes, `morse_to_index s` is
`2^n` plus the sum of `2^i` over the positions `i` (the first symbol at 0)
where `s` holds a dash. -/
theorem morse_to_index_formula (s : List Char) (hs : is_pattern s) (hn : s.length ≤ 7) :
    morse_to_index s = 2 ^ s.length + dash_weight s := by
  rw [morse_to_index_pattern hs hn, pattern_value_eq]

/-- Witness of C2: the empty pattern yields 1, `.` yields 2, `-` yields 3, and
the six-symbol pattern `-.-.--` yields 64 + 1 + 4 + 16 + 32. -/
theorem morse_to_index_formula_witness :
    morse_to_index [] = 1 ∧ morse_to_index ['.'] = 2 ∧ morse_to_index ['-'] = 3 ∧
    morse_to_index "-.-.--".toList = 2 ^ 6 + (1 + 4 + 16 + 32) :=
  ⟨morse_to_index_formula [] (by decide) (by decide),
   morse_to_index_formula ['.'] (by decide) (by decide),
   morse_to_index_formula ['-'] (by decide) (by decide),
   morse_to_index_formula "-.-.--".toList (by decide) (by decide)⟩

/-- C3. On patterns of at most 7 dots and dashes `morse_to_index` is injective:
two different patterns have different indices. -/
theorem morse_to_index_injective (p q : List Char) (hp : is_pattern p) (hq : is_pattern q)
    (hpn : p.length ≤ 7) (hqn : q.length ≤ 7) (hne : p ≠ q) :
    morse_to_index p ≠ morse_to_index q := by
  rw [morse_to_index_pattern hp hpn, morse_to_index_pattern hq hqn]
  exact fun h => hne (pattern_value_inj hp hq h)

/-- Witness of C3: `.-` and `.-.` share a prefix and differ in length. -/
theorem morse_to_index_injective_witness :
    morse_to_index ".-".toList ≠ morse_to_index ".-.".toList :=
  morse_to_index_injective ".-".toList ".-.".toList (by decide) (by decide) (by decide)
    (by decide) (by decide)

/-- C4. For every C string `s`, `morse_to_index s` is 0 exactly when `s` has
more than 7 characters or holds a character other than a dot or a dash among
its first 8; equivalently it is non-zero exactly when `s` consists of at most
7 dots and dashes. -/
theorem morse_to_index_zero_iff (s : List Char) (h0 : '\x00' ∉ s) :
    (morse_to_index s = 0 ↔ (7 < s.length ∨ ∃ c ∈ s.take 8, c ≠ '.' ∧ c ≠ '-')) ∧
    (morse_to_index s ≠ 0 ↔ (s.length ≤ 7 ∧ is_pattern s)) := by
  have hnz : morse_to_index s ≠ 0 ↔ (s.length ≤ 7 ∧ is_pattern s) := by
    rw [morse_to_index_eq s h0]
    constructor
    · intro h
      by_contra hc
      exact h (if_neg hc)
    · intro h
      rw [if_pos h]
      have := pattern_value_pos s
      omega
  refine ⟨?_, hnz⟩
  constructor
  · intro h
    by_contra hc
    push_neg at hc
    have hlen : s.length ≤ 7 := by omega
    have htake : s.take 8 = s := List.take_of_length_le (by omega)
    refine (hnz.2 ⟨hlen, ?_⟩) h
    intro c hc'
    rw [htake] at hc
    by_cases hdot : c = '.'
    · exact Or.inl hdot
    · exact Or.inr (hc.2 c hc' hdot)
  · intro h
    by_contra hc
    have hp := hnz.1 hc
    rcases h with h | ⟨c, hc', hdot, hdash⟩
    · omega
    · rcases hp.2 c (List.mem_of_mem_take hc') with h | h
      · exact hdot h
      · exact hdash h

/-- Witness of C4 at a string of 8 dots (index 0) and at `.x` (index 0). -/
theorem morse_to_index_zero_iff_witness :
    (morse_to_index "........".toList = 0 ↔
      (7 < "........".toList.length ∨ ∃ c ∈ "........".toList.take 8, c ≠ '.' ∧ c ≠ '-')) ∧
    (morse_to_index ".x".toList ≠ 0 ↔ (".x".toList.length ≤ 7 ∧ is_pattern ".x".toList)) :=
  ⟨(morse_to_index_zero_iff "........".toList (by decide)).1,
   (morse_to_index_zero_iff ".x".toList (by decide)).2⟩

/-- C5, at the input where the code leaves the claimed range: the pattern of
seven dots is a pattern of at most 7 symbols, `morse_to_index` returns 128 for
it, and `morse_to_char` then reads entry 128 of the 128-entry table
`MORSE_TO_CHAR`, which has entries 0..127 only. -/
theorem morse_to_index_seven_dots :
    is_pattern ".......".toList ∧ ".......".toList.length ≤ 7 ∧
    morse_to_index ".......".toList = 128 ∧ MORSE_TO_CHAR.length = 128 ∧
    morse_to_char ".......".toList = none := by
  decide

/-- C6, the claim as stated, refuted at the text `" "` under the default
profile: the configured frequency is 1000, and the one tone written for the
space is not the tone (120, 500, 1000) the claim names. -/
theorem space_tone_not_at_hz :
    (init_info zero_info).hz = 1000 ∧
    text_to_teletone (init_info zero_info) [] " ".toList ≠
      some [{ on_ms := 120, off_ms := 500, freq := 1000 }] := by
  decide

/-- C6, amended. For every timing profile, each space of a 7-bit text adds to
the stream exactly one tone, between the tones of the text before it and
those of the text after it, whose on-duration is `on_dash`, whose
off-duration is `end` and whose frequency is the constant 1 of the format
string, whatever `hz` is; under the default profile the text `" "` yields
exactly the one tone (120, 500, 1). -/
theorem space_tone :
    (∀ (info : morse_t) (stream : List ToneEvent) (s t : List Char), text7 s → text7 t →
      ∃ a b, text_to_teletone info [] s = some a ∧ text_to_teletone info [] t = some b ∧
        text_to_teletone info stream (s ++ [' '] ++ t) =
          some (stream ++ a ++ [{ on_ms := info.on_dash, off_ms := info.end_, freq := 1 }] ++ b)) ∧
    text_to_teletone (init_info zero_info) [] " ".toList =
      some [{ on_ms := 120, off_ms := 500, freq := 1 }] := by
  refine ⟨?_, by decide⟩
  intro info stream s t hs ht
  refine ⟨s.flatMap (tone_piece info), t.flatMap (tone_piece info), ?_, ?_, ?_⟩
  · simpa using text_to_teletone_text7 info s hs []
  · simpa using text_to_teletone_text7 info t ht []
  · have hsp : text7 [' '] := by decide
    rw [text_to_teletone_text7 info _ (text7_append.2 ⟨text7_append.2 ⟨hs, hsp⟩, ht⟩) stream]
    simp [List.flatMap_append, tone_piece]

/-- Witness of the amended C6: in the text `E E` under the default profile with
`hz` set to 440, the space adds the tone (120, 500, 1) between the tones of
the two letters. -/
theorem space_tone_witness :
    ∃ a b, text_to_teletone { init_info zero_info with hz := 440 } [] ['E'] = some a ∧
      text_to_teletone { init_info zero_info with hz := 440 } [] ['E'] = some b ∧
      text_to_teletone { init_info zero_info with hz := 440 } [] (['E'] ++ [' '] ++ ['E']) =
        some ([] ++ a ++ [{ on_ms := 120, off_ms := 500, freq := 1 }] ++ b) :=
  space_tone.1 { init_info zero_info with hz := 440 } [] ['E'] ['E'] (by decide) (by decide)

/-- C7. For every timing profile and every 7-bit character `c` other than the
space whose pattern `p` exists, `text_to_teletone` on the one-character text
`c` adds exactly `length p` tones in pattern order; the `j`-th has on-duration
`on_dot` where `p[j]` is a dot and `on_dash` where it is a dash (every symbol
is one of the two), off-duration `off` before the last symbol and `end` at
the last symbol, and frequency `hz`.  Under the default profile `E` gives the
one tone (60, 500, 1000) and `SOS` gives 9 tones whose off-duration is 500 on
the 3rd, 6th and 9th only. -/
theorem single_char_tones :
    (∀ (info : morse_t) (stream : List ToneEvent) (c : Char) (p : String),
      c.toNat < 128 → c ≠ ' ' → char_to_morse c = some (some p) →
      ∃ evs : List ToneEvent,
        text_to_teletone info stream [c] = some (stream ++ evs) ∧
        evs.length = p.length ∧
        ∀ j, j < p.length → ∃ e, evs[j]? = some e ∧
          (p.toList[j]? = some '.' ∨ p.toList[j]? = some '-') ∧
          (p.toList[j]? = some '.' → e.on_ms = info.on_dot) ∧
          (p.toList[j]? = some '-' → e.on_ms = info.on_dash) ∧
          (j < p.length - 1 → e.off_ms = info.off) ∧
          (j = p.length - 1 → e.off_ms = info.end_) ∧
          e.freq = info.hz) ∧
    text_to_teletone (init_info zero_info) [] "E".toList =
      some [{ on_ms := 60, off_ms := 500, freq := 1000 }] ∧
    text_to_teletone (init_info zero_info) [] "SOS".toList =
      some [{ on_ms := 60, off_ms := 100, freq := 1000 },
            { on_ms := 60, off_ms := 100, freq := 1000 },
            { on_ms := 60, off_ms := 500, freq := 1000 },
            { on_ms := 120, off_ms := 100, freq := 1000 },
            { on_ms := 120, off_ms := 100, freq := 1000 },
            { on_ms := 120, off_ms := 500, freq := 1000 },
            { on_ms := 60, off_ms := 100, freq := 1000 },
            { on_ms := 60, off_ms := 100, freq := 1000 },
            { on_ms := 60, off_ms := 500, freq := 1000 }] := by
  refine ⟨?_, tones_of_E, tones_of_SOS⟩
  intro info stream c p h7 hsp hp
  have hnul : c ≠ '\x00' := by
    intro h0
    rw [h0, char_to_morse_nul] at hp
    cases hp
  have hpat := char_to_morse_is_pattern h7 hp
  have htext : text7 [c] := by
    intro x hx
    rw [List.mem_singleton] at hx
    rw [hx]; exact ⟨hnul, h7⟩
  have hlen : p.length = p.toList.length := rfl
  refine ⟨(List.range p.toList.length).map (symbol_event info p.toList), ?_, ?_, ?_⟩
  · rw [text_to_teletone_text7 info [c] htext stream]
    unfold tone_piece
    rw [List.flatMap_cons, List.flatMap_nil, List.append_nil, if_neg hsp, hp]
    simp only [write_code_eq, List.nil_append]
  · rw [List.length_map, List.length_range, hlen]
  · intro j hj
    rw [hlen] at hj
    have hget : p.toList[j]? = some p.toList[j] := List.getElem?_eq_getElem hj
    have hsym := hpat p.toList[j] (List.getElem_mem hj)
    refine ⟨symbol_event info p.toList j, ?_, ?_, ?_, ?_, ?_, ?_, rfl⟩
    · rw [List.getElem?_map, List.getElem?_range hj]; rfl
    · rw [hget]; rcases hsym with h | h
      · exact Or.inl (by rw [h])
      · exact Or.inr (by rw [h])
    · intro hdot
      have hne : p.toList[j]? ≠ some '-' := by rw [hdot]; decide
      simp only [symbol_event, if_neg hne]
    · intro hdash
      simp only [symbol_event, if_pos hdash]
    · intro hlt
      have hne : j ≠ p.toList.length - 1 := by rw [hlen] at hlt; omega
      simp only [symbol_event, if_neg hne]
    · intro heq
      rw [hlen] at heq
      simp only [symbol_event, if_pos heq]

/-- Witness of C7 at the letter `S` under the default profile. -/
theorem single_char_tones_witness :
    ∃ evs : List ToneEvent,
      text_to_teletone (init_info zero_info) [] ['S'] = some ([] ++ evs) ∧
      evs.length = "...".length ∧
      ∀ j, j < "...".length → ∃ e, evs[j]? = some e ∧
        ("...".toList[j]? = some '.' ∨ "...".toList[j]? = some '-') ∧
        ("...".toList[j]? = some '.' → e.on_ms = (init_info zero_info).on_dot) ∧
        ("...".toList[j]? = some '-' → e.on_ms = (init_info zero_info).on_dash) ∧
        (j < "...".length - 1 → e.off_ms = (init_info zero_info).off) ∧
        (j = "...".length - 1 → e.off_ms = (init_info zero_info).end_) ∧
        e.freq = (init_info zero_info).hz :=
  single_char_tones.1 (init_info zero_info) [] 'S' "..." (by decide) (by decide) (by decide)

/-- C8. For every 7-bit text, `text_to_morse` adds to the stream the
concatenation, in input order and with nothing between the pieces, of one
piece per input character: `" "` for a space, the pattern `char_to_morse`
returns for a character that has one, and nothing otherwise.  The text `SOS`
yields `...---...`. -/
theorem text_to_morse_pieces :
    (∀ (info : morse_t) (stream : List Char) (s : List Char), text7 s →
      text_to_morse info stream s =
        some (stream ++ (s.map fun c =>
          if c = ' ' then " ".toList
          else match char_to_morse c with
            | some (some code) => code.toList
            | _ => []).flatten)) ∧
    text_to_morse zero_info [] "SOS".toList = some "...---...".toList := by
  refine ⟨?_, morse_of_SOS⟩
  intro info stream s hs
  rw [text_to_morse_text7 info s hs stream, List.flatMap_def]
  rfl

/-- Witness of C8 at the text `a b!`, with a lowercase letter and a space. -/
theorem text_to_morse_pieces_witness :
    text_to_morse zero_info [] "a b!".toList = some ".- -...-.-.--".toList :=
  text_to_morse_pieces.1 zero_info [] "a b!".toList (by decide)

/-- C9. A character without a mapping adds nothing in either compiler: when
`s ++ [c] ++ t` is a 7-bit text, `c` is not the space and `char_to_morse c`
returns the null entry, both `text_to_morse` and `text_to_teletone` return
on `s ++ [c] ++ t` what they return on `s ++ t`, and they do return a result. -/
theorem unmapped_char_skipped (info : morse_t) (mstream : List Char)
    (tstream : List ToneEvent) (s t : List Char) (c : Char)
    (htext : text7 (s ++ [c] ++ t)) (hsp : c ≠ ' ') (hc : char_to_morse c = some none) :
    text_to_morse info mstream (s ++ [c] ++ t) = text_to_morse info mstream (s ++ t) ∧
    text_to_teletone info tstream (s ++ [c] ++ t) = text_to_teletone info tstream (s ++ t) ∧
    (text_to_morse info mstream (s ++ t)).isSome ∧
    (text_to_teletone info tstream (s ++ t)).isSome := by
  have hst : text7 (s ++ t) := by
    have h := text7_append.1 htext
    exact text7_append.2 ⟨(text7_append.1 h.1).1, h.2⟩
  have hm : morse_piece c = [] := by simp [morse_piece, hsp, hc]
  have ht : tone_piece info c = [] := by simp [tone_piece, hsp, hc]
  rw [text_to_morse_text7 info _ htext, text_to_morse_text7 info _ hst,
    text_to_teletone_text7 info _ htext, text_to_teletone_text7 info _ hst]
  simp [List.flatMap_append, hm, ht]

/-- Witness of C9 at the unmapped character `#` between `S` and `OS`. -/
theorem unmapped_char_skipped_witness :
    text_to_morse zero_info [] ("S".toList ++ ['#'] ++ "OS".toList) =
      text_to_morse zero_info [] ("S".toList ++ "OS".toList) ∧
    text_to_teletone (init_info zero_info) [] ("S".toList ++ ['#'] ++ "OS".toList) =
      text_to_teletone (init_info zero_info) [] ("S".toList ++ "OS".toList) ∧
    (text_to_morse zero_info [] ("S".toList ++ "OS".toList)).isSome ∧
    (text_to_teletone (init_info zero_info) [] ("S".toList ++ "OS".toList)).isSome :=
  ⟨(unmapped_char_skipped zero_info [] [] "S".toList "OS".toList '#' (by decide) (by decide) (by decide)).1,
   (unmapped_char_skipped (init_info zero_info) [] [] "S".toList "OS".toList '#' (by decide) (by decide) (by decide)).2⟩

/-- C10. `char_to_morse` ignores case: for every lowercase letter `c` in
`a`..`z`, `char_to_morse c` returns a non-null pattern, the same one it
returns for the upper-case letter `c - 32`, although the entry of
`CHAR_TO_MORSE` at the code of `c` itself is null. -/
theorem char_to_morse_lowercase (c : Char)
    (hlow : 'a'.toNat ≤ c.toNat ∧ c.toNat ≤ 'z'.toNat) :
    ∃ p : String, char_to_morse c = some (some p) ∧
      char_to_morse (Char.ofNat (c.toNat - 32)) = some (some p) ∧
      CHAR_TO_MORSE[c.toNat]? = some none := by
  have h122 : 'z'.toNat = 122 := rfl
  have h := char_to_morse_table_lower c.toNat (by omega) hlow.1 hlow.2
  rw [Char.ofNat_toNat] at h
  cases hc : char_to_morse c with
  | none => rw [hc] at h; cases h
  | some r =>
    cases r with
    | none => rw [hc] at h; cases h
    | some p =>
      rw [hc] at h
      exact ⟨p, rfl, of_decide_eq_true h⟩

/-- Witness of C10 at the letter `q`, whose pattern is that of `Q`. -/
theorem char_to_morse_lowercase_witness :
    ∃ p : String, char_to_morse 'q' = some (some p) ∧
      char_to_morse (Char.ofNat ('q'.toNat - 32)) = some (some p) ∧
      CHAR_TO_MORSE['q'.toNat]? = some none :=
  char_to_morse_lowercase 'q' (by decide)

/-! ## Lemmas on the two tables as inverses -/

theorem char_ofNat_toNat_small : ∀ n < 128, (Char.ofNat n).toNat = n := by
  decide

theorem forward_table_decodes :
    ∀ c < 128,
      (match CHAR_TO_MORSE[c]? with
        | some (some p) =>
          decide (morse_to_char p.toList = some (some (String.singleton (Char.ofNat c))))
        | _ => true) = true := by
  decide

theorem forward_entry_decodes {c : Nat} {p : String} (hc : c < 128)
    (hp : CHAR_TO_MORSE[c]? = some (some p)) :
    morse_to_char p.toList = some (some (String.singleton (Char.ofNat c))) := by
  have h := forward_table_decodes c hc
  rw [hp] at h
  simpa using h

theorem reverse_table_encodes :
    ∀ i < 128,
      (match MORSE_TO_CHAR[i]? with
        | some (some str) =>
          decide (str = String.singleton (str.toList.headD '\x00')) &&
            (match char_to_morse (str.toList.headD '\x00') with
              | some (some p) => decide (morse_to_index p.toList = i)
              | _ => false)
        | _ => true) = true := by
  decide

theorem table_counts :
    (CHAR_TO_MORSE.filter Option.isSome).length = 50 ∧
    (MORSE_TO_CHAR.filter Option.isSome).length = 50 := by
  decide

theorem forward_table_range :
    ∀ c < 128,
      (match CHAR_TO_MORSE[c]? with
        | some (some p) =>
          decide (2 ≤ morse_to_index p.toList ∧ morse_to_index p.toList ≤ 127)
        | _ => true) = true := by
  decide

/-! ## Lemmas relating the two compilers -/

theorem symbols_agree (info : morse_t) (code : List Char) (hpat : is_pattern code) :
    List.Forall₂
      (fun (e : ToneEvent) (ch : Char) =>
        (ch = '.' → e.on_ms = info.on_dot) ∧ (ch = '-' ∨ ch = ' ' → e.on_ms = info.on_dash))
      ((List.range code.length).map (symbol_event info code)) code := by
  rw [List.forall₂_iff_get]
  refine ⟨by simp, ?_⟩
  intro j h1 h2
  simp only [List.get_eq_getElem, List.getElem_map, List.getElem_range]
  have hget : code[j]? = some code[j] := List.getElem?_eq_getElem h2
  rcases hpat code[j] (List.getElem_mem h2) with h | h
  · constructor
    · intro _
      have hne : code[j]? ≠ some '-' := by rw [hget, h]; decide
      simp only [symbol_event, if_neg hne]
    · intro h'
      rw [h] at h'
      rcases h' with h' | h' <;> exact absurd h' (by decide)
  · constructor
    · intro h'
      rw [h] at h'
      exact absurd h' (by decide)
    · intro _
      have heq : code[j]? = some '-' := by rw [hget, h]
      simp only [symbol_event, if_pos heq]

theorem pieces_agree (info : morse_t) (c : Char) (h7 : c.toNat < 128) :
    List.Forall₂
      (fun (e : ToneEvent) (ch : Char) =>
        (ch = '.' → e.on_ms = info.on_dot) ∧ (ch = '-' ∨ ch = ' ' → e.on_ms = info.on_dash))
      (tone_piece info c) (morse_piece c) := by
  unfold tone_piece morse_piece
  by_cases hsp : c = ' '
  · rw [if_pos hsp, if_pos hsp]
    refine List.Forall₂.cons ⟨?_, fun _ => rfl⟩ List.Forall₂.nil
    intro h
    exact absurd h (by decide)
  · rw [if_neg hsp, if_neg hsp]
    cases hc : char_to_morse c with
    | none => exact List.Forall₂.nil
    | some r =>
      cases r with
      | none => exact List.Forall₂.nil
      | some code =>
        simp only []
        rw [write_code_eq, List.nil_append]
        exact symbols_agree info code.toList (char_to_morse_is_pattern h7 hc)

theorem texts_agree (info : morse_t) (s : List Char) (hs : text7 s) :
    List.Forall₂
      (fun (e : ToneEvent) (ch : Char) =>
        (ch = '.' → e.on_ms = info.on_dot) ∧ (ch = '-' ∨ ch = ' ' → e.on_ms = info.on_dash))
      (s.flatMap (tone_piece info)) (s.flatMap morse_piece) := by
  induction s with
  | nil => exact List.Forall₂.nil
  | cons c s ih =>
    have h := text7_cons.1 hs
    rw [List.flatMap_cons, List.flatMap_cons]
    exact List.rel_append (pieces_agree info c h.1.2) (ih h.2)

/-! ## Lemmas on the name comparison -/

theorem char_eq_of_toNat_eq {a b : Char} (h : a.toNat = b.toNat) : a = b := by
  rw [← Char.ofNat_toNat a, ← Char.ofNat_toNat b, h]

theorem char_toNat_eq_zero {c : Char} : c.toNat = 0 ↔ c = '\x00' := by
  constructor
  · intro h; exact char_eq_of_toNat_eq h
  · intro h; rw [h]; rfl

theorem tolower_upper_table :
    ∀ n < 128, 'A'.toNat ≤ n → n ≤ 'Z'.toNat → Char.ofNat (n + 32) ≠ '\x00' := by
  decide

theorem tolower_eq_nul {c : Char} : tolower c = '\x00' ↔ c = '\x00' := by
  unfold tolower
  constructor
  · intro h
    split at h
    · rename_i hc
      have h90 : 'Z'.toNat = 90 := rfl
      exact absurd h (tolower_upper_table c.toNat (by omega) hc.1 hc.2)
    · exact h
  · intro h
    rw [h]
    decide

theorem tolower_nul : tolower '\x00' = '\x00' := by
  decide

theorem sub_toNat_eq_zero {a b : Char} : ((a.toNat : Int) - b.toNat = 0) ↔ a = b := by
  constructor
  · intro h
    exact char_eq_of_toNat_eq (by omega)
  · intro h
    rw [h]; omega

theorem c_str_nil : c_str [] = [] := rfl

theorem c_str_cons_nul (s : List Char) : c_str ('\x00' :: s) = [] := by
  simp [c_str]

theorem c_str_cons {a : Char} (h : a ≠ '\x00') (s : List Char) :
    c_str (a :: s) = a :: c_str s := by
  simp [c_str, h]

theorem strcasecmp_eq_zero_iff (a : List Char) :
    ∀ b : List Char,
      strcasecmp a b = 0 ↔ (c_str a).map tolower = (c_str b).map tolower := by
  induction a with
  | nil =>
    intro b
    cases b with
    | nil => simp [strcasecmp, c_str_nil, tolower_nul]
    | cons b t =>
      simp only [strcasecmp, List.headD_cons, c_str_nil, List.map_nil]
      by_cases hb : b = '\x00'
      · rw [hb, c_str_cons_nul, tolower_nul]; simp
      · rw [c_str_cons hb]
        have hl : tolower b ≠ '\x00' := fun h => hb (tolower_eq_nul.1 h)
        have hn : (tolower b).toNat ≠ 0 := fun h => hl (char_toNat_eq_zero.1 h)
        constructor
        · intro h; omega
        · intro h; simp at h
  | cons a s ih =>
    intro b
    rw [strcasecmp]
    by_cases ha : a = '\x00'
    · rw [if_pos (Or.inr ha), ha, c_str_cons_nul, tolower_nul]
      cases b with
      | nil => simp [c_str_nil, tolower_nul]
      | cons b t =>
        simp only [List.headD_cons, List.map_nil]
        by_cases hb : b = '\x00'
        · rw [hb, c_str_cons_nul, tolower_nul]; simp
        · rw [c_str_cons hb]
          have hl : tolower b ≠ '\x00' := fun h => hb (tolower_eq_nul.1 h)
          have hn : (tolower b).toNat ≠ 0 := fun h => hl (char_toNat_eq_zero.1 h)
          have h0 : ('\x00' : Char).toNat = 0 := rfl
          rw [h0]
          constructor
          · intro h; omega
          · intro h; simp at h
    · have hla : tolower a ≠ '\x00' := fun h => ha (tolower_eq_nul.1 h)
      rw [c_str_cons ha]
      cases b with
      | nil =>
        simp only [List.headD_nil, tolower_nul, c_str_nil, List.map_nil]
        rw [if_pos (Or.inl hla)]
        have hn : (tolower a).toNat ≠ 0 := fun h => hla (char_toNat_eq_zero.1 h)
        have h0 : ('\x00' : Char).toNat = 0 := rfl
        rw [h0]
        constructor
        · intro h; omega
        · intro h; simp at h
      | cons b t =>
        simp only [List.headD_cons, List.tail_cons]
        by_cases hab : tolower a = tolower b
        · have hb : b ≠ '\x00' := by
            intro hb
            rw [hb, tolower_nul] at hab
            exact hla hab
          rw [if_neg (by rintro (h | h); exact h hab; exact ha h), c_str_cons hb, ih t]
          simp [hab]
        · rw [if_pos (Or.inl hab)]
          constructor
          · intro h
            exact absurd (sub_toNat_eq_zero.1 h) hab
          · intro h
            exfalso
            by_cases hb : b = '\x00'
            · rw [hb, c_str_cons_nul] at h; simp at h
            · rw [c_str_cons hb] at h
              simp only [List.map_cons, List.cons.injEq] at h
              exact hab h.1

theorem strcasecmp_name (param : List Char) (name : String) :
    strcasecmp param name.toList = 0 ↔ same_name param name :=
  strcasecmp_eq_zero_iff param name.toList

theorem same_name_unique {param : List Char} {x y : String}
    (hx : same_name param x) (hy : same_name param y) :
    (c_str x.toList).map tolower = (c_str y.toList).map tolower :=
  hx.symm.trans hy

theorem cmp_hz {param : List Char} :
    strcasecmp param "hz".toList = 0 ↔ same_name param "hz" :=
  strcasecmp_name param "hz"

theorem cmp_on_dot {param : List Char} :
    strcasecmp param "on_dot".toList = 0 ↔ same_name param "on_dot" :=
  strcasecmp_name param "on_dot"

theorem cmp_on_dash {param : List Char} :
    strcasecmp param "on_dash".toList = 0 ↔ same_name param "on_dash" :=
  strcasecmp_name param "on_dash"

theorem cmp_off {param : List Char} :
    strcasecmp param "off".toList = 0 ↔ same_name param "off" :=
  strcasecmp_name param "off"

theorem cmp_end {param : List Char} :
    strcasecmp param "end".toList = 0 ↔ same_name param "end" :=
  strcasecmp_name param "end"

theorem numeric_param_cases (lib : c_numeric) (info : morse_t) (param : List Char) (val : Int) :
    (same_name param "hz" →
      morse_numeric_param_tts lib info param val = { info with hz := lib.float_of_int val }) ∧
    (same_name param "on_dot" →
      morse_numeric_param_tts lib info param val = { info with on_dot := val }) ∧
    (same_name param "on_dash" →
      morse_numeric_param_tts lib info param val = { info with on_dash := val }) ∧
    (same_name param "off" →
      morse_numeric_param_tts lib info param val = { info with off := val }) ∧
    (same_name param "end" →
      morse_numeric_param_tts lib info param val = { info with end_ := val }) := by
  unfold morse_numeric_param_tts
  simp only [cmp_hz, cmp_on_dot, cmp_on_dash, cmp_off, cmp_end]
  refine ⟨?_, ?_, ?_, ?_, ?_⟩
  · intro h
    rw [if_pos h]
  · intro h
    rw [if_neg (fun h' => absurd (same_name_unique h' h) (by decide)), if_pos h]
  · intro h
    rw [if_neg (fun h' => absurd (same_name_unique h' h) (by decide)),
      if_neg (fun h' => absurd (same_name_unique h' h) (by decide)), if_pos h]
  · intro h
    rw [if_neg (fun h' => absurd (same_name_unique h' h) (by decide)),
      if_neg (fun h' => absurd (same_name_unique h' h) (by decide)),
      if_neg (fun h' => absurd (same_name_unique h' h) (by decide)), if_pos h]
  · intro h
    rw [if_neg (fun h' => absurd (same_name_unique h' h) (by decide)),
      if_neg (fun h' => absurd (same_name_unique h' h) (by decide)),
      if_neg (fun h' => absurd (same_name_unique h' h) (by decide)),
      if_neg (fun h' => absurd (same_name_unique h' h) (by decide)), if_pos h]

theorem text_param_cases (lib : c_numeric) (info : morse_t) (param val : List Char) :
    (same_name param "hz" →
      morse_text_param_tts lib info (some param) (some val) =
        { info with hz := lib.float_of_double (lib.atof val) }) ∧
    (same_name param "on_dot" →
      morse_text_param_tts lib info (some param) (some val) =
        { info with on_dot := lib.atoi val }) ∧
    (same_name param "on_dash" →
      morse_text_param_tts lib info (some param) (some val) =
        { info with on_dash := lib.atoi val }) ∧
    (same_name param "off" →
      morse_text_param_tts lib info (some param) (some val) =
        { info with off := lib.atoi val }) ∧
    (same_name param "end" →
      morse_text_param_tts lib info (some param) (some val) =
        { info with end_ := lib.atoi val }) := by
  unfold morse_text_param_tts
  simp only [cmp_hz, cmp_on_dot, cmp_on_dash, cmp_off, cmp_end]
  refine ⟨?_, ?_, ?_, ?_, ?_⟩
  · intro h
    rw [if_pos h]
  · intro h
    rw [if_neg (fun h' => absurd (same_name_unique h' h) (by decide)), if_pos h]
  · intro h
    rw [if_neg (fun h' => absurd (same_name_unique h' h) (by decide)),
      if_neg (fun h' => absurd (same_name_unique h' h) (by decide)), if_pos h]
  · intro h
    rw [if_neg (fun h' => absurd (same_name_unique h' h) (by decide)),
      if_neg (fun h' => absurd (same_name_unique h' h) (by decide)),
      if_neg (fun h' => absurd (same_name_unique h' h) (by decide)), if_pos h]
  · intro h
    rw [if_neg (fun h' => absurd (same_name_unique h' h) (by decide)),
      if_neg (fun h' => absurd (same_name_unique h' h) (by decide)),
      if_neg (fun h' => absurd (same_name_unique h' h) (by decide)),
      if_neg (fun h' => absurd (same_name_unique h' h) (by decide)), if_pos h]

theorem float_param_cases (lib : c_numeric) (info : morse_t) (param : List Char) (val : Rat) :
    (same_name param "hz" →
      morse_float_param_tts lib info param val =
        { info with hz := lib.float_of_double val }) ∧
    (¬same_name param "hz" → morse_float_param_tts lib info param val = info) := by
  unfold morse_float_param_tts
  simp only [cmp_hz]
  exact ⟨fun h => by rw [if_pos h], fun h => by rw [if_neg h]⟩

/-! ## Lemmas on the conversion of an `int` to `float` -/

theorem dropped_bits_small {n : Nat} (h : n < 2 ^ 24) : dropped_bits n n = 0 := by
  cases n with
  | zero => rfl
  | succ m => rw [dropped_bits, if_pos h]

theorem round_to_float_exact {n : Nat} (h : n ≤ 2 ^ 24) : round_to_float n = n := by
  rcases Nat.eq_or_lt_of_le h with h | h
  · rw [h]; decide
  · unfold round_to_float
    rw [dropped_bits_small h]
    simp [Nat.mod_one]

theorem int_to_float_exact {v : Int} (hlo : -(2 ^ 24) ≤ v) (hhi : v ≤ 2 ^ 24) :
    int_to_float v = (v : Rat) := by
  have hn : v.natAbs ≤ 2 ^ 24 := by omega
  unfold int_to_float
  rw [round_to_float_exact hn]
  split
  · rename_i hneg
    have h : ((v.natAbs : Nat) : Int) = -v := by omega
    rw [← Int.cast_natCast, h, Int.cast_neg, neg_neg]
  · rename_i hpos
    have h : ((v.natAbs : Nat) : Int) = v := by omega
    rw [← Int.cast_natCast, h]

/-! ## The claims on the tables, the query and the setters -/

/-- C11. Patterns are unique across the alphabet: two distinct positions of
`CHAR_TO_MORSE` in 0..127 whose entries are both non-null hold different
pattern strings. -/
theorem patterns_unique (c d : Nat) (p q : String) (hc : c < 128) (hd : d < 128)
    (hne : c ≠ d) (hp : CHAR_TO_MORSE[c]? = some (some p))
    (hq : CHAR_TO_MORSE[d]? = some (some q)) : p ≠ q := by
  intro hpq
  have h1 := forward_entry_decodes hc hp
  have h2 := forward_entry_decodes hd hq
  rw [hpq, h2] at h1
  have h3 : String.singleton (Char.ofNat d) = String.singleton (Char.ofNat c) :=
    Option.some.inj (Option.some.inj h1)
  have h4 : Char.ofNat d = Char.ofNat c := by
    have := congrArg String.data h3
    simpa [String.singleton] using this
  have h5 := congrArg Char.toNat h4
  rw [char_ofNat_toNat_small d hd, char_ofNat_toNat_small c hc] at h5
  exact hne h5.symm

/-- Witness of C11 at the positions of `A` (65) and `N` (78), whose patterns
`.-` and `-.` are mirror images. -/
theorem patterns_unique_witness : (".-" : String) ≠ "-." :=
  patterns_unique 65 78 ".-" "-." (by decide) (by decide) (by decide) (by decide) (by decide)

/-- C12, the claim as stated, refuted at the empty string: `cmd = ""` is not
null, so the call writes the output of `text_to_morse` on the empty text,
which is nothing, and not the error line. -/
theorem api_empty_string_no_error :
    morse_api_function (some []) ≠
      some (switch_status_t.SWITCH_STATUS_SUCCESS, api_stream.text "-ERR Missing Text".toList) := by
  decide

/-- C12, amended. When `cmd` is null, `morse_api_function` writes exactly the
text `-ERR Missing Text` and returns success; when `cmd` is the empty string
it returns success and writes nothing. -/
theorem api_missing_text :
    morse_api_function none =
      some (switch_status_t.SWITCH_STATUS_SUCCESS, api_stream.text "-ERR Missing Text".toList) ∧
    morse_api_function (some []) =
      some (switch_status_t.SWITCH_STATUS_SUCCESS, api_stream.text []) := by
  decide

/-- C13. Sigil dispatch of `morse_api_function`: on `%` followed by `t` it
writes exactly what `text_to_teletone` writes for `t` under the default
profile, the sigil dropped; on a non-null `cmd` whose first character is not
`%` it writes exactly what `text_to_morse` writes for `cmd`.  Both hold for
every buffer, and on a 7-bit text the result exists and the status is
success. -/
theorem api_sigil_dispatch :
    (∀ t : List Char,
      morse_api_function (some ('%' :: t)) =
        (text_to_teletone (init_info zero_info) [] t).map
          fun evs => (switch_status_t.SWITCH_STATUS_SUCCESS, api_stream.tones evs)) ∧
    (∀ cmd : List Char, cmd.head? ≠ some '%' →
      morse_api_function (some cmd) =
        (text_to_morse (init_info zero_info) [] cmd).map
          fun s => (switch_status_t.SWITCH_STATUS_SUCCESS, api_stream.text s)) ∧
    (∀ t : List Char, text7 t →
      ∃ evs, text_to_teletone (init_info zero_info) [] t = some evs ∧
        morse_api_function (some ('%' :: t)) =
          some (switch_status_t.SWITCH_STATUS_SUCCESS, api_stream.tones evs)) ∧
    (∀ cmd : List Char, text7 cmd → cmd.head? ≠ some '%' →
      ∃ s, text_to_morse (init_info zero_info) [] cmd = some s ∧
        morse_api_function (some cmd) =
          some (switch_status_t.SWITCH_STATUS_SUCCESS, api_stream.text s)) := by
  have h1 : ∀ t : List Char,
      morse_api_function (some ('%' :: t)) =
        (text_to_teletone (init_info zero_info) [] t).map
          fun evs => (switch_status_t.SWITCH_STATUS_SUCCESS, api_stream.tones evs) := by
    intro t
    simp only [morse_api_function, List.headD_cons, List.tail_cons, if_true]
  have h2 : ∀ cmd : List Char, cmd.head? ≠ some '%' →
      morse_api_function (some cmd) =
        (text_to_morse (init_info zero_info) [] cmd).map
          fun s => (switch_status_t.SWITCH_STATUS_SUCCESS, api_stream.text s) := by
    intro cmd hhead
    have hne : cmd.headD '\x00' ≠ '%' := by
      cases cmd with
      | nil => decide
      | cons a l =>
        intro h
        apply hhead
        simp only [List.headD_cons] at h
        rw [List.head?_cons, h]
    simp only [morse_api_function, if_neg hne]
  refine ⟨h1, h2, ?_, ?_⟩
  · intro t ht
    refine ⟨_, text_to_teletone_text7 _ t ht [], ?_⟩
    rw [h1 t, text_to_teletone_text7 _ t ht []]
    rfl
  · intro cmd hcmd hhead
    refine ⟨_, text_to_morse_text7 _ cmd hcmd [], ?_⟩
    rw [h2 cmd hhead, text_to_morse_text7 _ cmd hcmd []]
    rfl

/-- Witness of C13 at the input `%E E` and at the input `E E`, for the same
remaining text. -/
theorem api_sigil_dispatch_witness :
    (∃ evs, text_to_teletone (init_info zero_info) [] "E E".toList = some evs ∧
      morse_api_function (some ('%' :: "E E".toList)) =
        some (switch_status_t.SWITCH_STATUS_SUCCESS, api_stream.tones evs)) ∧
    (∃ s, text_to_morse (init_info zero_info) [] "E E".toList = some s ∧
      morse_api_function (some "E E".toList) =
        some (switch_status_t.SWITCH_STATUS_SUCCESS, api_stream.text s)) :=
  ⟨api_sigil_dispatch.2.2.1 "E E".toList (by decide),
   api_sigil_dispatch.2.2.2 "E E".toList (by decide) (by decide)⟩

/-- C14. For each of the three setters and every parameter name that equals
none of `hz`, `on_dot`, `on_dash`, `off`, `end` ignoring case, the call
returns the profile it was given, so all five fields `hz`, `on_dot`,
`on_dash`, `off` and `end` are unchanged, whatever the value. -/
theorem unknown_name_ignored (lib : c_numeric) (info : morse_t) (param : List Char)
    (hname : ¬known_name param) :
    (∀ val : Option (List Char), morse_text_param_tts lib info (some param) val = info) ∧
    (∀ val : Int, morse_numeric_param_tts lib info param val = info) ∧
    (∀ val : Rat, morse_float_param_tts lib info param val = info) := by
  have h1 : ¬same_name param "hz" := fun h => hname (Or.inl h)
  have h2 : ¬same_name param "on_dot" := fun h => hname (Or.inr (Or.inl h))
  have h3 : ¬same_name param "on_dash" := fun h => hname (Or.inr (Or.inr (Or.inl h)))
  have h4 : ¬same_name param "off" := fun h => hname (Or.inr (Or.inr (Or.inr (Or.inl h))))
  have h5 : ¬same_name param "end" := fun h => hname (Or.inr (Or.inr (Or.inr (Or.inr h))))
  refine ⟨?_, ?_, ?_⟩
  · intro val
    cases val with
    | none => rfl
    | some val =>
      unfold morse_text_param_tts
      simp only [cmp_hz, cmp_on_dot, cmp_on_dash, cmp_off, cmp_end]
      rw [if_neg h1, if_neg h2, if_neg h3, if_neg h4, if_neg h5]
  · intro val
    unfold morse_numeric_param_tts
    simp only [cmp_hz, cmp_on_dot, cmp_on_dash, cmp_off, cmp_end]
    rw [if_neg h1, if_neg h2, if_neg h3, if_neg h4, if_neg h5]
  · intro val
    exact (float_param_cases lib info param val).2 h1

/-- Witness of C14 at the name `volume` on the default profile. -/
theorem unknown_name_ignored_witness :
    (∀ val : Option (List Char),
      morse_text_param_tts sample_numeric (init_info zero_info) (some "volume".toList) val =
        init_info zero_info) ∧
    (∀ val : Int,
      morse_numeric_param_tts sample_numeric (init_info zero_info) "volume".toList val =
        init_info zero_info) ∧
    (∀ val : Rat,
      morse_float_param_tts sample_numeric (init_info zero_info) "volume".toList val =
        init_info zero_info) :=
  unknown_name_ignored sample_numeric (init_info zero_info) "volume".toList (by decide)

/-- C15, the claim as stated, refuted at the float-valued setter called with
`on_dot` and 75.5 on the default profile: `on_dot` stays 60, it does not
become 75. -/
theorem float_param_ignores_on_dot :
    (morse_float_param_tts sample_numeric (init_info zero_info) "on_dot".toList
      (151 / 2)).on_dot = 60 ∧
    (morse_float_param_tts sample_numeric (init_info zero_info) "on_dot".toList
      (151 / 2)).on_dot ≠ 75 := by
  decide

/-- C15, amended. The string-valued and the integer-valued setter reach all
five named fields: called with a name equal to `hz`, `on_dot`, `on_dash`,
`off` or `end` ignoring case, each sets the field of that name from the
supplied value (parsed by `atof` for `hz` and by `atoi` for the others in
the string-valued setter) and leaves the other four as they were.  The
float-valued setter reaches `hz` only: called with `hz` it sets `hz` from
the value, and called with `on_dot`, `on_dash`, `off` or `end` it returns the
profile unchanged. -/
theorem setters_reach (lib : c_numeric) (info : morse_t) (param : List Char) :
    (∀ val : List Char,
      (same_name param "hz" →
        morse_text_param_tts lib info (some param) (some val) =
          { info with hz := lib.float_of_double (lib.atof val) }) ∧
      (same_name param "on_dot" →
        morse_text_param_tts lib info (some param) (some val) =
          { info with on_dot := lib.atoi val }) ∧
      (same_name param "on_dash" →
        morse_text_param_tts lib info (some param) (some val) =
          { info with on_dash := lib.atoi val }) ∧
      (same_name param "off" →
        morse_text_param_tts lib info (some param) (some val) =
          { info with off := lib.atoi val }) ∧
      (same_name param "end" →
        morse_text_param_tts lib info (some param) (some val) =
          { info with end_ := lib.atoi val })) ∧
    (∀ val : Int,
      (same_name param "hz" →
        morse_numeric_param_tts lib info param val = { info with hz := lib.float_of_int val }) ∧
      (same_name param "on_dot" →
        morse_numeric_param_tts lib info param val = { info with on_dot := val }) ∧
      (same_name param "on_dash" →
        morse_numeric_param_tts lib info param val = { info with on_dash := val }) ∧
      (same_name param "off" →
        morse_numeric_param_tts lib info param val = { info with off := val }) ∧
      (same_name param "end" →
        morse_numeric_param_tts lib info param val = { info with end_ := val })) ∧
    (∀ val : Rat,
      (same_name param "hz" →
        morse_float_param_tts lib info param val =
          { info with hz := lib.float_of_double val }) ∧
      (same_name param "on_dot" ∨ same_name param "on_dash" ∨ same_name param "off" ∨
          same_name param "end" →
        morse_float_param_tts lib info param val = info)) := by
  refine ⟨fun val => text_param_cases lib info param val,
    fun val => numeric_param_cases lib info param val, fun val => ⟨?_, ?_⟩⟩
  · exact (float_param_cases lib info param val).1
  · intro h
    apply (float_param_cases lib info param val).2
    intro hhz
    rcases h with h | h | h | h <;>
      exact absurd (same_name_unique hhz h) (by decide)

/-- Witness of the amended C15 on the default profile: the string-valued
setter called with `END` sets `end`, and the float-valued setter called with
`off` returns the profile unchanged. -/
theorem setters_reach_witness :
    morse_text_param_tts sample_numeric (init_info zero_info) (some "END".toList)
        (some "75".toList) =
      { init_info zero_info with end_ := sample_numeric.atoi "75".toList } ∧
    morse_float_param_tts sample_numeric (init_info zero_info) "off".toList (151 / 2) =
      init_info zero_info :=
  ⟨((setters_reach sample_numeric (init_info zero_info) "END".toList).1
      "75".toList).2.2.2.2 (by decide),
   ((setters_reach sample_numeric (init_info zero_info) "off".toList).2.2 (151 / 2)).2
      (Or.inr (Or.inr (Or.inl (by decide))))⟩

/-- C16, the claim as stated, refuted at the name `hz` and the integer
16777217 (2^24 + 1) on the default profile: the `float` field `hz` cannot
hold that integer, the assignment stores 16777216, not `val`. -/
theorem numeric_param_hz_rounds :
    (morse_numeric_param_tts rounding_numeric (init_info zero_info) "hz".toList
      16777217).hz = 16777216 ∧
    (morse_numeric_param_tts rounding_numeric (init_info zero_info) "hz".toList
      16777217).hz ≠ 16777217 := by
  decide

/-- C16, amended. For every integer `val` and every name equal to one of
`on_dot`, `on_dash`, `off`, `end` ignoring case, `morse_numeric_param_tts`
sets exactly the field of that name to `val` and leaves the other four fields
unchanged.  For a name equal to `hz` ignoring case it sets exactly the field
`hz`, to `val` converted to `float` by the assignment (round to nearest on a
24-bit significand), which is `val` itself whenever `val` lies in
-2^24..2^24, and leaves the other four fields unchanged. -/
theorem numeric_param_sets_field (lib : c_numeric) (info : morse_t) (param : List Char)
    (val : Int) (hlib : lib.float_of_int = int_to_float) :
    (same_name param "hz" →
      morse_numeric_param_tts lib info param val = { info with hz := int_to_float val } ∧
      (-(2 ^ 24) ≤ val → val ≤ 2 ^ 24 →
        morse_numeric_param_tts lib info param val = { info with hz := (val : Rat) })) ∧
    (same_name param "on_dot" →
      morse_numeric_param_tts lib info param val = { info with on_dot := val }) ∧
    (same_name param "on_dash" →
      morse_numeric_param_tts lib info param val = { info with on_dash := val }) ∧
    (same_name param "off" →
      morse_numeric_param_tts lib info param val = { info with off := val }) ∧
    (same_name param "end" →
      morse_numeric_param_tts lib info param val = { info with end_ := val }) := by
  have h := numeric_param_cases lib info param val
  refine ⟨fun hhz => ?_, h.2⟩
  have h1 := h.1 hhz
  rw [hlib] at h1
  refine ⟨h1, fun hlo hhi => ?_⟩
  rw [h1, int_to_float_exact hlo hhi]

/-- Witness of the amended C16 on the default profile, with C's conversion of
an `int` to `float`: the name `ON_DOT` sets `on_dot` to 75, the name `Hz` sets
`hz` to 440, and the name `HZ` with 16777219 sets `hz` to the rounded value. -/
theorem numeric_param_sets_field_witness :
    morse_numeric_param_tts rounding_numeric (init_info zero_info) "ON_DOT".toList 75 =
      { init_info zero_info with on_dot := 75 } ∧
    morse_numeric_param_tts rounding_numeric (init_info zero_info) "Hz".toList 440 =
      { init_info zero_info with hz := ((440 : Int) : Rat) } ∧
    morse_numeric_param_tts rounding_numeric (init_info zero_info) "HZ".toList 16777219 =
      { init_info zero_info with hz := int_to_float 16777219 } :=
  ⟨(numeric_param_sets_field rounding_numeric (init_info zero_info) "ON_DOT".toList 75 rfl).2.1
      (by decide),
   ((numeric_param_sets_field rounding_numeric (init_info zero_info) "Hz".toList 440 rfl).1
      (by decide)).2 (by decide) (by decide),
   ((numeric_param_sets_field rounding_numeric (init_info zero_info) "HZ".toList 16777219
      rfl).1 (by decide)).1⟩

/-- C17. The reverse table has no orphan and no mismatched entry: every
non-null entry of `MORSE_TO_CHAR` at an index `i` in 0..127 is a string of
exactly one character `ch`, `char_to_morse ch` returns a pattern, and
`morse_to_index` of that pattern is `i`.  In the other direction every
non-null entry of `CHAR_TO_MORSE` at a position `c` decodes to the one
character `c`; both tables hold 50 non-null entries. -/
theorem tables_inverse :
    (∀ (i : Nat) (str : String), i < 128 → MORSE_TO_CHAR[i]? = some (some str) →
      ∃ (ch : Char) (p : String), str = String.singleton ch ∧
        char_to_morse ch = some (some p) ∧ morse_to_index p.toList = i) ∧
    (∀ (c : Nat) (p : String), c < 128 → CHAR_TO_MORSE[c]? = some (some p) →
      morse_to_char p.toList = some (some (String.singleton (Char.ofNat c)))) ∧
    (CHAR_TO_MORSE.filter Option.isSome).length = 50 ∧
    (MORSE_TO_CHAR.filter Option.isSome).length = 50 := by
  refine ⟨?_, fun c p hc hp => forward_entry_decodes hc hp, table_counts.1, table_counts.2⟩
  intro i str hi hstr
  have h := reverse_table_encodes i hi
  rw [hstr] at h
  simp only [Bool.and_eq_true, decide_eq_true_eq] at h
  obtain ⟨hone, hrest⟩ := h
  cases hc : char_to_morse (str.toList.headD '\x00') with
  | none => rw [hc] at hrest; cases hrest
  | some r =>
    cases r with
    | none => rw [hc] at hrest; cases hrest
    | some p =>
      rw [hc] at hrest
      exact ⟨str.toList.headD '\x00', p, hone, hc, of_decide_eq_true hrest⟩

/-- Witness of C17 at index 76, the entry `?`, whose pattern is `..--..`. -/
theorem tables_inverse_witness :
    ∃ (ch : Char) (p : String), ("?" : String) = String.singleton ch ∧
      char_to_morse ch = some (some p) ∧ morse_to_index p.toList = 76 :=
  tables_inverse.1 76 "?" (by decide) (by decide)

/-- C18. For every C string `s`, `morse_to_index s` is above 127, outside the
128 entries of `MORSE_TO_CHAR`, exactly when `s` has exactly 7 characters,
each a dot or a dash; for every other string the result is at most 127; and
for every pattern stored in `CHAR_TO_MORSE` it lies in 2..127. -/
theorem morse_to_index_above_table :
    (∀ s : List Char, '\x00' ∉ s →
      (127 < morse_to_index s ↔ (s.length = 7 ∧ is_pattern s)) ∧
      (¬(s.length = 7 ∧ is_pattern s) → morse_to_index s ≤ 127)) ∧
    (∀ (c : Nat) (p : String), c < 128 → CHAR_TO_MORSE[c]? = some (some p) →
      2 ≤ morse_to_index p.toList ∧ morse_to_index p.toList ≤ 127) := by
  constructor
  · intro s h0
    have key : 127 < morse_to_index s ↔ (s.length = 7 ∧ is_pattern s) := by
      rw [morse_to_index_eq s h0]
      constructor
      · intro h
        by_cases hc : s.length ≤ 7 ∧ is_pattern s
        · rw [if_pos hc] at h
          refine ⟨?_, hc.2⟩
          by_contra hlen
          have h6 : s.length + 1 ≤ 7 := by omega
          have hlt := pattern_value_lt s
          have hpow : 2 ^ (s.length + 1) ≤ 2 ^ 7 :=
            Nat.pow_le_pow_right (by norm_num) h6
          norm_num at hpow
          omega
        · rw [if_neg hc] at h
          omega
      · rintro ⟨hlen, hpat⟩
        rw [if_pos ⟨by omega, hpat⟩]
        have hge := pattern_value_ge s
        rw [hlen] at hge
        norm_num at hge
        omega
    exact ⟨key, fun h => Nat.le_of_not_lt (fun hlt => h (key.1 hlt))⟩
  · intro c p hc hp
    have h := forward_table_range c hc
    rw [hp] at h
    simpa using h

/-- Witness of C18: the seven-symbol pattern `.-.-.-.` is a C string of
exactly 7 dots and dashes, so its index is above 127, and the entry `..--.-`
at position 95 has its index in 2..127. -/
theorem morse_to_index_above_table_witness :
    127 < morse_to_index ".-.-.-.".toList ∧
    (2 ≤ morse_to_index "..--.-".toList ∧ morse_to_index "..--.-".toList ≤ 127) :=
  ⟨((morse_to_index_above_table.1 ".-.-.-.".toList (by decide)).1).2 (by decide),
   morse_to_index_above_table.2 95 "..--.-" (by decide) (by decide)⟩

/-- C19. Both compilers are homomorphisms over concatenation: for all 7-bit
texts `s` and `t` and every timing profile, the output for `s ++ t` is the
output for `s` followed by the output for `t`, in `text_to_morse` and in
`text_to_teletone`; the output is the concatenation of one piece per input
character, a piece that depends on the character only (and on the profile,
for the tones); and the empty text yields the empty output. -/
theorem compilers_homomorphic :
    (∀ (info : morse_t) (s t : List Char), text7 s → text7 t →
      (∃ a b, text_to_morse info [] s = some a ∧ text_to_morse info [] t = some b ∧
        text_to_morse info [] (s ++ t) = some (a ++ b)) ∧
      (∃ a b, text_to_teletone info [] s = some a ∧ text_to_teletone info [] t = some b ∧
        text_to_teletone info [] (s ++ t) = some (a ++ b))) ∧
    (∃ (f : Char → List Char) (g : morse_t → Char → List ToneEvent),
      ∀ (info : morse_t) (s : List Char), text7 s →
        text_to_morse info [] s = some (s.flatMap f) ∧
        text_to_teletone info [] s = some (s.flatMap (g info))) ∧
    (∀ info : morse_t, text_to_morse info [] [] = some [] ∧
      text_to_teletone info [] [] = some []) := by
  refine ⟨?_, ⟨morse_piece, tone_piece, ?_⟩, ?_⟩
  · intro info s t hs ht
    have hst := text7_append.2 ⟨hs, ht⟩
    constructor
    · refine ⟨s.flatMap morse_piece, t.flatMap morse_piece, ?_, ?_, ?_⟩
      · rw [text_to_morse_text7 info s hs, List.nil_append]
      · rw [text_to_morse_text7 info t ht, List.nil_append]
      · rw [text_to_morse_text7 info _ hst, List.nil_append, List.flatMap_append]
    · refine ⟨s.flatMap (tone_piece info), t.flatMap (tone_piece info), ?_, ?_, ?_⟩
      · rw [text_to_teletone_text7 info s hs, List.nil_append]
      · rw [text_to_teletone_text7 info t ht, List.nil_append]
      · rw [text_to_teletone_text7 info _ hst, List.nil_append, List.flatMap_append]
  · intro info s hs
    constructor
    · rw [text_to_morse_text7 info s hs, List.nil_append]
    · rw [text_to_teletone_text7 info s hs, List.nil_append]
  · intro info
    exact ⟨by rw [text_to_morse], by rw [text_to_teletone]⟩

/-- Witness of C19 at the texts `SO` and `S x` under the default profile. -/
theorem compilers_homomorphic_witness :
    (∃ a b, text_to_morse (init_info zero_info) [] "SO".toList = some a ∧
        text_to_morse (init_info zero_info) [] "S x".toList = some b ∧
        text_to_morse (init_info zero_info) [] ("SO".toList ++ "S x".toList) = some (a ++ b)) ∧
    (∃ a b, text_to_teletone (init_info zero_info) [] "SO".toList = some a ∧
        text_to_teletone (init_info zero_info) [] "S x".toList = some b ∧
        text_to_teletone (init_info zero_info) [] ("SO".toList ++ "S x".toList) =
          some (a ++ b)) :=
  compilers_homomorphic.1 (init_info zero_info) "SO".toList "S x".toList (by decide) (by decide)

/-- C20. The two compilers agree symbol for symbol: for every 7-bit text and
every timing profile, `text_to_teletone` emits as many tones as
`text_to_morse` emits characters, and the `k`-th tone has on-duration `on_dot`
when the `k`-th character of the Morse text is a dot and `on_dash` when it is
a dash or a space. -/
theorem compilers_agree (info : morse_t) (s : List Char) (hs : text7 s) :
    ∃ (evs : List ToneEvent) (txt : List Char),
      text_to_teletone info [] s = some evs ∧ text_to_morse info [] s = some txt ∧
      evs.length = txt.length ∧
      ∀ (k : Nat) (e : ToneEvent) (ch : Char), evs[k]? = some e → txt[k]? = some ch →
        (ch = '.' → e.on_ms = info.on_dot) ∧
        (ch = '-' ∨ ch = ' ' → e.on_ms = info.on_dash) := by
  have hrel := texts_agree info s hs
  refine ⟨s.flatMap (tone_piece info), s.flatMap morse_piece, ?_, ?_, hrel.length_eq, ?_⟩
  · rw [text_to_teletone_text7 info s hs, List.nil_append]
  · rw [text_to_morse_text7 info s hs, List.nil_append]
  · intro k e ch he hch
    rw [List.forall₂_iff_get] at hrel
    obtain ⟨hk1, he'⟩ := List.getElem?_eq_some.1 he
    obtain ⟨hk2, hch'⟩ := List.getElem?_eq_some.1 hch
    have := hrel.2 k hk1 hk2
    simp only [List.get_eq_getElem] at this
    rw [he', hch'] at this
    exact this

/-- Witness of C20 at the text `a B` under the default profile. -/
theorem compilers_agree_witness :
    ∃ (evs : List ToneEvent) (txt : List Char),
      text_to_teletone (init_info zero_info) [] "a B".toList = some evs ∧
      text_to_morse (init_info zero_info) [] "a B".toList = some txt ∧
      evs.length = txt.length ∧
      ∀ (k : Nat) (e : ToneEvent) (ch : Char), evs[k]? = some e → txt[k]? = some ch →
        (ch = '.' → e.on_ms = (init_info zero_info).on_dot) ∧
        (ch = '-' ∨ ch = ' ' → e.on_ms = (init_info zero_info).on_dash) :=
  compilers_agree (init_info zero_info) "a B".toList (by decide)

end ModMorse
